import Mathlib

/-!
Verification of the Stampede-Management crowd monitoring core.

This file shallowly embeds the core components of the repository
(src/config.py, src/trackers.py, src/occupancy.py, src/geometry.py)
as Lean definitions and proves the specification claims about them.

Modelling conventions:
- Python floats are modelled as exact rationals where the code only
  performs field arithmetic and comparisons, and as real numbers where
  the source uses transcendental functions (math.pi, math.log).
- Python dict iteration order is insertion order, so a dict of tracks is
  modelled as an insertion-ordered list of track records.
- The Euclidean-distance comparisons of trackers.py compare
  math.sqrt of a sum of squares against a threshold; since sqrt is
  strictly monotone on nonnegative inputs, the embedding compares
  squared distances, with the threshold comparison rendered as
  0 < thr and d2 < thr^2, which is exactly equivalent to sqrt d2 < thr.
-/

/-- Python int() applied to a rational: truncation toward zero. -/
def pyInt (q : ℚ) : ℤ := if 0 ≤ q then ⌊q⌋ else ⌈q⌉

/-- Python int() applied to a real number: truncation toward zero.
Used for the capacity computation of occupancy.py which involves math.pi. -/
noncomputable def pyIntReal (x : ℝ) : ℤ := if 0 ≤ x then ⌊x⌋ else ⌈x⌉

/-- The monitoring configuration fields used by the core pipeline,
from the MonitoringConfig dataclass of src/config.py, with the same
defaults (0.4 is the float literal for ema_alpha, 0.5 for
alert_clear_offset). -/
structure MonitoringConfig where
  cell_width : ℚ := 1
  cell_height : ℚ := 1
  person_radius : ℚ := 2
  max_age : ℕ := 80
  centroid_distance_threshold : ℚ := 80
  ema_alpha : ℚ := 2/5
  fps : ℚ := 15
  hysteresis_time : ℚ := 3
  alert_clear_offset : ℚ := 1/2
deriving Repr, DecidableEq

/-- The TrackData dataclass of src/config.py. -/
structure TrackData where
  track_id : ℕ
  bbox : ℤ × ℤ × ℤ × ℤ
  world_position : ℚ × ℚ
  confidence : ℚ := 1
  age : ℕ := 0
  confirmed : Bool := true
deriving Repr, DecidableEq

/-! ## Geometry (src/geometry.py) -/

/-- A 3 by 3 homography matrix with rational entries. -/
structure Mat3 where
  m00 : ℚ
  m01 : ℚ
  m02 : ℚ
  m10 : ℚ
  m11 : ℚ
  m12 : ℚ
  m20 : ℚ
  m21 : ℚ
  m22 : ℚ
deriving Repr, DecidableEq

/-- The projective transform applied by cv2.perspectiveTransform to a
single point, as called in GeometryProcessor.world_to_image_point with
the inverse homography.  The transform divides by the homogeneous
coordinate w; when w is 0 the pipeline of the source produces
non-finite floats on which the subsequent int() raises, so the error
branch of the try block is taken; this is modelled by an error value. -/
def applyInvHomography (m : Mat3) (x y : ℚ) : Except Unit (ℚ × ℚ) :=
  let w := m.m20 * x + m.m21 * y + m.m22
  if w = 0 then Except.error ()
  else Except.ok ((m.m00 * x + m.m01 * y + m.m02) / w,
                  (m.m10 * x + m.m11 * y + m.m12) / w)

/-- GeometryProcessor.world_to_image_point of src/geometry.py: applies
the inverse homography to one world point and truncates both
coordinates with int(); any error in the try block yields (0, 0). -/
def world_to_image_point (m : Mat3) (x y : ℚ) : ℤ × ℤ :=
  match applyInvHomography m x y with
  | Except.ok p => (pyInt p.1, pyInt p.2)
  | Except.error _ => (0, 0)

/-! ## Alert state machine (OccupancyGrid of src/occupancy.py) -/

/-- Per-cell mutable alert state of OccupancyGrid: one entry of the
timers array and one entry of the notified array. -/
structure CellState where
  timer : ℚ
  notified : Bool
deriving Repr, DecidableEq

/-- The events a single cell can emit during one pass of
OccupancyGrid.update_alerts: the overcapacity warning log (activation)
and the alert-cleared log (clearance). -/
structure AlertEvents where
  activated : Bool
  cleared : Bool
deriving Repr, DecidableEq

/-- One cell of the loop body of OccupancyGrid.update_alerts
(src/occupancy.py lines 108-128): advance or decay the timer, raise the
notification when the timer reaches the hysteresis time, and clear it
when the smoothed count drops to max(0, cell_capacity - 0.5).  The
clearing margin 0.5 is a literal in the source; the configured
alert_clear_offset field is not consulted there. -/
def alertStep (cfg : MonitoringConfig) (cap : ℤ) (ema dt : ℚ)
    (st : CellState) : CellState × AlertEvents :=
  let t : ℚ := if (cap : ℚ) < ema then st.timer + dt else max 0 (st.timer - dt)
  let fire : Bool := decide (cfg.hysteresis_time ≤ t) && !st.notified
  let n1 : Bool := st.notified || fire
  let clear : Bool := n1 && decide (ema ≤ max 0 ((cap : ℚ) - 1/2))
  let n2 : Bool := n1 && !clear
  (⟨t, n2⟩, ⟨fire, clear⟩)

/-- Iterated alert updates on one cell from the initial state (timer 0,
not notified), holding the smoothed count and the time step fixed. -/
def alertIter (cfg : MonitoringConfig) (cap : ℤ) (ema dt : ℚ) : ℕ → CellState
  | 0 => ⟨0, false⟩
  | n + 1 => (alertStep cfg cap ema dt (alertIter cfg cap ema dt n)).1

/-- Whether the activation event fires on call number n (calls are
numbered from 1) of the iterated alert update. -/
def activatedAt (cfg : MonitoringConfig) (cap : ℤ) (ema dt : ℚ) (n : ℕ) : Bool :=
  match n with
  | 0 => false
  | k + 1 => (alertStep cfg cap ema dt (alertIter cfg cap ema dt k)).2.activated

/-! ## Occupancy grid construction (OccupancyGrid.init of src/occupancy.py) -/

/-- Number of grid columns: int(math.ceil(world_width / cell_width)).
The math.ceil of Python 3 already returns an integer. -/
noncomputable def gridCols (world_width cell_width : ℝ) : ℤ :=
  ⌈world_width / cell_width⌉

/-- Number of grid rows: int(math.ceil(world_height / cell_height)). -/
noncomputable def gridRows (world_height cell_height : ℝ) : ℤ :=
  ⌈world_height / cell_height⌉

/-- Cell capacity of OccupancyGrid: person_area is pi times the squared
person radius, cell_area the product of the configured cell dimensions,
and the capacity is max(1, int(cell_area / person_area)). -/
noncomputable def cellCapacity (cell_width cell_height person_radius : ℝ) : ℤ :=
  max 1 (pyIntReal ((cell_width * cell_height) / (Real.pi * person_radius ^ 2)))

/-! ## Occupancy grid runtime state (OccupancyGrid.update of src/occupancy.py) -/

/-- The world polygon of a track as consumed by OccupancyGrid.update.
The source obtains a shapely Polygon from
GeometryProcessor.project_bbox_to_world and only uses its bounds, its
area and its intersection with axis-aligned cell boxes; the embedding
represents the polygon as an axis-aligned rectangle, for which those
three operations are exact: bounds are the rectangle itself, the area
is width times height, and the intersection with a box is again a
rectangle.  The numerical-exception fallback branch of the source
(which adds 0.1 to a cell) cannot be triggered by exact rational
rectangle intersection and therefore does not appear. -/
structure WorldRect where
  minx : ℚ
  miny : ℚ
  maxx : ℚ
  maxy : ℚ
deriving Repr, DecidableEq

/-- Area of a world rectangle, 0 when degenerate or inverted, matching
the nonnegative area of a shapely geometry. -/
def WorldRect.area (p : WorldRect) : ℚ :=
  max 0 (p.maxx - p.minx) * max 0 (p.maxy - p.miny)

/-- Intersection of two world rectangles, as shapely intersection
restricted to boxes. -/
def WorldRect.inter (p q : WorldRect) : WorldRect :=
  ⟨max p.minx q.minx, max p.miny q.miny, min p.maxx q.maxx, min p.maxy q.maxy⟩

/-- The axis-aligned cell rectangle built with shapely box in
OccupancyGrid.update. -/
def cellBox (cfg : MonitoringConfig) (row col : ℤ) : WorldRect :=
  ⟨col * cfg.cell_width, row * cfg.cell_height,
   (col + 1) * cfg.cell_width, (row + 1) * cfg.cell_height⟩

/-- The contribution of one track polygon to current_counts
(src/occupancy.py lines 71-92): the bounding cell range clamped to the
grid, and inside it the clamped overlap fraction added per cell. -/
def addTrackCounts (cfg : MonitoringConfig) (rows cols : ℕ) (poly : WorldRect)
    (counts : ℤ → ℤ → ℚ) : ℤ → ℤ → ℚ :=
  let min_col : ℤ := max 0 ⌊poly.minx / cfg.cell_width⌋
  let max_col : ℤ := min ((cols : ℤ) - 1) ⌊poly.maxx / cfg.cell_width⌋
  let min_row : ℤ := max 0 ⌊poly.miny / cfg.cell_height⌋
  let max_row : ℤ := min ((rows : ℤ) - 1) ⌊poly.maxy / cfg.cell_height⌋
  fun r c =>
    if min_row ≤ r ∧ r ≤ max_row ∧ min_col ≤ c ∧ c ≤ max_col then
      counts r c + max 0 (min 1 ((poly.inter (cellBox cfg r c)).area / poly.area))
    else counts r c

/-- The current_counts grid accumulated over the track list in
OccupancyGrid.update: tracks whose projection fails or whose polygon
area is at most 1e-6 are skipped.  The projection of a bounding box to
a world polygon is the external geometry processor, passed as proj. -/
def currentCounts (cfg : MonitoringConfig) (rows cols : ℕ)
    (proj : ℤ × ℤ × ℤ × ℤ → Option WorldRect)
    (tracks : List TrackData) : ℤ → ℤ → ℚ :=
  tracks.foldl
    (fun counts tr =>
      match proj tr.bbox with
      | none => counts
      | some poly =>
          if poly.area ≤ 1/1000000 then counts
          else addTrackCounts cfg rows cols poly counts)
    (fun _ _ => 0)

/-- The runtime state of OccupancyGrid: dimensions, capacity, and the
three per-cell arrays. -/
structure GridState where
  rows : ℕ
  cols : ℕ
  cell_capacity : ℤ
  ema_counts : ℤ → ℤ → ℚ
  timers : ℤ → ℤ → ℚ
  notified : ℤ → ℤ → Bool

/-- OccupancyGrid.update_alerts applied to every cell of the grid
(cells outside the array bounds are untouched). -/
def GridState.update_alerts (cfg : MonitoringConfig) (g : GridState) (dt : ℚ) :
    GridState :=
  { g with
    timers := fun r c =>
      if 0 ≤ r ∧ r < (g.rows : ℤ) ∧ 0 ≤ c ∧ c < (g.cols : ℤ) then
        (alertStep cfg g.cell_capacity (g.ema_counts r c) dt
          ⟨g.timers r c, g.notified r c⟩).1.timer
      else g.timers r c
    notified := fun r c =>
      if 0 ≤ r ∧ r < (g.rows : ℤ) ∧ 0 ≤ c ∧ c < (g.cols : ℤ) then
        (alertStep cfg g.cell_capacity (g.ema_counts r c) dt
          ⟨g.timers r c, g.notified r c⟩).1.notified
      else g.notified r c }

/-- OccupancyGrid.update: accumulate current_counts from the tracks,
apply the exponential moving average with the configured alpha, then
advance the alert machinery by dt. -/
def GridState.update (cfg : MonitoringConfig)
    (proj : ℤ × ℤ × ℤ × ℤ → Option WorldRect)
    (g : GridState) (tracks : List TrackData) (dt : ℚ) : GridState :=
  let counts := currentCounts cfg g.rows g.cols proj tracks
  let g1 := { g with
    ema_counts := fun r c =>
      cfg.ema_alpha * counts r c + (1 - cfg.ema_alpha) * g.ema_counts r c }
  g1.update_alerts cfg dt

/-! ## Scalar EMA recurrence (src/occupancy.py line 95, per cell) -/

/-- One application of the exponential moving average recurrence of
OccupancyGrid.update to a single cell holding value y with constant
input c. -/
def emaStep (alpha c y : ℝ) : ℝ := alpha * c + (1 - alpha) * y

/-- The EMA recurrence iterated t ticks from y0 with constant input c. -/
def emaIter (alpha c y0 : ℝ) : ℕ → ℝ
  | 0 => y0
  | t + 1 => emaStep alpha c (emaIter alpha c y0 t)

/-! ## Centroid tracker (SimpleCentroidTracker of src/trackers.py) -/

/-- State of a SimpleCentroidTracker instance: the fresh-identity
counter, the insertion-ordered dict of tracks, and the construction
parameters. -/
structure TrackerState where
  next_id : ℕ := 1
  tracks : List TrackData := []
  max_age : ℕ := 30
  distance_threshold : ℚ := 80
deriving Repr, DecidableEq

/-- A centroid record of update_tracks: the raw detection together with
the centroid of its first four coordinates.  Detections shorter than
four entries are dropped by the comprehension. -/
def centroids (dets : List (List ℚ)) : List (List ℚ × ℚ × ℚ) :=
  (dets.filter (fun d => decide (4 ≤ d.length))).map
    (fun d => (d, ((d.getD 0 0 + d.getD 2 0) / 2, (d.getD 1 0 + d.getD 3 0) / 2)))

/-- The integer bounding box stored on a track: int() of the first four
detection entries. -/
def detBbox (d : List ℚ) : ℤ × ℤ × ℤ × ℤ :=
  (pyInt (d.getD 0 0), pyInt (d.getD 1 0), pyInt (d.getD 2 0), pyInt (d.getD 3 0))

/-- The confidence stored on a track: the fifth detection entry when
present, otherwise 1.0. -/
def detConf (d : List ℚ) : ℚ := if 4 < d.length then d.getD 4 0 else 1

/-- Squared Euclidean distance between two planar points.  The source
compares math.sqrt of this quantity; all comparisons are rendered on
the squares (see the module docstring). -/
def sqDist (p q : ℚ × ℚ) : ℚ := (p.1 - q.1) ^ 2 + (p.2 - q.2) ^ 2

/-- The inner detection scan of match_tracks_to_detections: walk the
centroid list from index i, skip used indices, and keep the candidate
of least distance that is strictly below the distance threshold,
earlier indices winning ties.  The candidate carries its index, its
centroid record and its squared distance. -/
def scanDetections (thr : ℚ) (pos : ℚ × ℚ) (used : List ℕ) :
    ℕ → List (List ℚ × ℚ × ℚ) → Option (ℕ × (List ℚ × ℚ × ℚ) × ℚ) →
    Option (ℕ × (List ℚ × ℚ × ℚ) × ℚ)
  | _, [], best => best
  | i, c :: rest, best =>
      let d := sqDist pos c.2
      let best' :=
        if i ∈ used then best
        else
          match best with
          | none => if 0 < thr ∧ d < thr ^ 2 then some (i, c, d) else none
          | some (j, b, bd) =>
              if d < bd ∧ (0 < thr ∧ d < thr ^ 2) then some (i, c, d)
              else some (j, b, bd)
      scanDetections thr pos used (i + 1) rest best'

/-- The best detection for one track: the scan started at index 0 with
no candidate (best_distance infinity). -/
def bestMatch (thr : ℚ) (pos : ℚ × ℚ) (used : List ℕ)
    (cents : List (List ℚ × ℚ × ℚ)) : Option (ℕ × (List ℚ × ℚ × ℚ) × ℚ) :=
  scanDetections thr pos used 0 cents none

/-- The age bump applied to an unmatched track. -/
def bump (t : TrackData) : TrackData := { t with age := t.age + 1 }

/-- The track loop of match_tracks_to_detections: process the tracks in
dict order; a matched track gets the detection geometry and age 0 and
marks its detection index used, an unmatched track ages by one. -/
def matchTracks (thr : ℚ) :
    List TrackData → List ℕ → List (List ℚ × ℚ × ℚ) → List TrackData × List ℕ
  | [], used, _ => ([], used)
  | tr :: rest, used, cents =>
      match bestMatch thr tr.world_position used cents with
      | some (i, c, _) =>
          let res := matchTracks thr rest (i :: used) cents
          ({ tr with bbox := detBbox c.1, world_position := c.2,
                     confidence := detConf c.1, age := 0 } :: res.1, res.2)
      | none =>
          let res := matchTracks thr rest used cents
          (bump tr :: res.1, res.2)

/-- Track creation for detection indices not in the used set, in list
order, consuming one fresh identity per created track.  With an empty
used set this is create_initial_tracks; after matching it is the
unmatched-detection loop of match_tracks_to_detections. -/
def createWith (used : List ℕ) :
    ℕ → ℕ → List (List ℚ × ℚ × ℚ) → List TrackData × ℕ
  | nid, _, [] => ([], nid)
  | nid, i, c :: rest =>
      if i ∈ used then createWith used nid (i + 1) rest
      else
        let res := createWith used (nid + 1) (i + 1) rest
        ((⟨nid, detBbox c.1, c.2, detConf c.1, 0, true⟩ : TrackData) :: res.1, res.2)

/-- SimpleCentroidTracker age_tracks: age every track by one. -/
def ageTracks (ts : List TrackData) : List TrackData := ts.map bump

/-- SimpleCentroidTracker remove_old_tracks: delete every track whose
age exceeds max_age, keeping dict order of the rest. -/
def removeOldTracks (ma : ℕ) (ts : List TrackData) : List TrackData :=
  ts.filter (fun t => decide (t.age ≤ ma))

/-- The tracks (and the new identity counter) present after the
aging / initial-creation / matching phase of update_tracks, before
remove_old_tracks runs. -/
def tracksAfterMatch (s : TrackerState) (dets : List (List ℚ)) :
    List TrackData × ℕ :=
  if dets = [] then (ageTracks s.tracks, s.next_id)
  else
    let cents := centroids dets
    if s.tracks = [] then createWith [] s.next_id 0 cents
    else
      let mr := matchTracks s.distance_threshold s.tracks [] cents
      let cr := createWith mr.2 s.next_id 0 cents
      (mr.1 ++ cr.1, cr.2)

/-- SimpleCentroidTracker.update_tracks: with an empty detection list,
age every track and return them all (no removal); otherwise run the
matching phase, then remove_old_tracks, and return the surviving
tracks. -/
def update_tracks (s : TrackerState) (dets : List (List ℚ)) :
    TrackerState × List TrackData :=
  if dets = [] then
    let ts := ageTracks s.tracks
    ({ s with tracks := ts }, ts)
  else
    let tn := tracksAfterMatch s dets
    let ts := removeOldTracks s.max_age tn.1
    ({ s with tracks := ts, next_id := tn.2 }, ts)

/-- The tracker state after a sequence of update_tracks calls. -/
def runCalls (s : TrackerState) (detss : List (List (List ℚ))) : TrackerState :=
  detss.foldl (fun t d => (update_tracks t d).1) s

/-- Well-formedness of a tracker state: track identities are pairwise
distinct and all below the fresh-identity counter.  This holds for the
initial state (no tracks, counter 1) and is preserved by updates. -/
def TrackerState.Inv (s : TrackerState) : Prop :=
  (s.tracks.map TrackData.track_id).Nodup ∧
  ∀ tr ∈ s.tracks, tr.track_id < s.next_id

/-- The track with identity tid matches no detection during one
update_tracks call on state s: if present, it goes through the
pre-removal phase with its age bumped by one and nothing else
changed. -/
def UnmatchedIn (s : TrackerState) (dets : List (List ℚ)) (tid : ℕ) : Prop :=
  ∀ tr ∈ s.tracks, tr.track_id = tid → bump tr ∈ (tracksAfterMatch s dets).1

/-- The track with identity tid matches no detection in any call of the
sequence. -/
def UnmatchedAll (tid : ℕ) : TrackerState → List (List (List ℚ)) → Prop
  | _, [] => True
  | s, d :: rest =>
      UnmatchedIn s d tid ∧ UnmatchedAll tid (update_tracks s d).1 rest

/-! ## Lemmas about the alert state machine -/

theorem cap_sub_half_max (cap : ℤ) (hcap : 1 ≤ cap) :
    max (0 : ℚ) ((cap : ℚ) - 1/2) = (cap : ℚ) - 1/2 := by
  have h1 : (1 : ℚ) ≤ (cap : ℚ) := by exact_mod_cast hcap
  exact max_eq_right (by linarith)

theorem alertStep_clear_false (cap : ℤ) (ema : ℚ)
    (hcap : 1 ≤ cap) (hema : (cap : ℚ) < ema) :
    decide (ema ≤ max 0 ((cap : ℚ) - 1/2)) = false := by
  rw [decide_eq_false_iff_not, cap_sub_half_max cap hcap]
  intro h
  linarith

theorem alertIter_timer (cfg : MonitoringConfig) (cap : ℤ) (ema dt : ℚ)
    (hema : (cap : ℚ) < ema) :
    ∀ n : ℕ, (alertIter cfg cap ema dt n).timer = n * dt := by
  intro n
  induction n with
  | zero => simp [alertIter]
  | succ k ih =>
      simp only [alertIter, alertStep, if_pos hema, ih]
      push_cast
      ring

theorem alertIter_notified (cfg : MonitoringConfig) (cap : ℤ) (ema dt : ℚ)
    (hcap : 1 ≤ cap) (hema : (cap : ℚ) < ema) (hdt : 0 ≤ dt)
    (hh : 0 < cfg.hysteresis_time) :
    ∀ n : ℕ, (alertIter cfg cap ema dt n).notified
      = decide (cfg.hysteresis_time ≤ n * dt) := by
  intro n
  induction n with
  | zero =>
      simp only [alertIter, Nat.cast_zero, zero_mul]
      rw [eq_comm, decide_eq_false_iff_not]
      intro h
      linarith
  | succ k ih =>
      have hclear := alertStep_clear_false cap ema hcap hema
      have htimer := alertIter_timer cfg cap ema dt hema k
      simp only [alertIter, alertStep, if_pos hema, htimer, ih, hclear,
        Bool.and_false, Bool.not_false, Bool.and_true]
      have hstep : ((k : ℚ)) * dt + dt = ((k + 1 : ℕ) : ℚ) * dt := by
        push_cast; ring
      rw [hstep]
      by_cases hk : cfg.hysteresis_time ≤ (k : ℚ) * dt
      · have hk1 : cfg.hysteresis_time ≤ ((k : ℚ) + 1) * dt := by
          nlinarith
        simp [hk, hk1]
      · simp [hk]

theorem activatedAt_iff (cfg : MonitoringConfig) (cap : ℤ) (ema dt : ℚ)
    (hcap : 1 ≤ cap) (hema : (cap : ℚ) < ema) (hdt : 0 ≤ dt)
    (hh : 0 < cfg.hysteresis_time) (n : ℕ) :
    activatedAt cfg cap ema dt (n + 1)
      = (decide (cfg.hysteresis_time ≤ ((n + 1 : ℕ) : ℚ) * dt)
          && !decide (cfg.hysteresis_time ≤ (n : ℚ) * dt)) := by
  have htimer := alertIter_timer cfg cap ema dt hema n
  have hnot := alertIter_notified cfg cap ema dt hcap hema hdt hh n
  simp only [activatedAt, alertStep, if_pos hema, htimer, hnot]
  have hstep : ((n : ℚ)) * dt + dt = ((n + 1 : ℕ) : ℚ) * dt := by
    push_cast; ring
  rw [hstep]

/-- C3: starting from timer 0 and not notified, with the smoothed count
held strictly above capacity and each call advancing time by dt, the
accumulated timer after n calls is n times dt, no activation fires on a
call whose accumulated timer is still below the hysteresis time, an
activation fires exactly on the call at which the timer first reaches
the hysteresis time, and at most one call of the whole sequence fires
an activation. -/
theorem alert_hysteresis_spec (cfg : MonitoringConfig) (cap : ℤ) (ema dt : ℚ)
    (hcap : 1 ≤ cap) (hema : (cap : ℚ) < ema) (hdt : 0 ≤ dt)
    (hh : 0 < cfg.hysteresis_time) :
    (∀ n : ℕ, (alertIter cfg cap ema dt n).timer = n * dt) ∧
    (∀ n : ℕ, ((n + 1 : ℕ) : ℚ) * dt < cfg.hysteresis_time →
      activatedAt cfg cap ema dt (n + 1) = false) ∧
    (∀ n : ℕ, activatedAt cfg cap ema dt (n + 1) = true ↔
      (cfg.hysteresis_time ≤ ((n + 1 : ℕ) : ℚ) * dt ∧
       (n : ℚ) * dt < cfg.hysteresis_time)) ∧
    (∀ m n : ℕ, activatedAt cfg cap ema dt m = true →
      activatedAt cfg cap ema dt n = true → m = n) := by
  have hiff : ∀ n : ℕ, activatedAt cfg cap ema dt (n + 1) = true ↔
      (cfg.hysteresis_time ≤ ((n + 1 : ℕ) : ℚ) * dt ∧
       (n : ℚ) * dt < cfg.hysteresis_time) := by
    intro n
    rw [activatedAt_iff cfg cap ema dt hcap hema hdt hh n]
    simp [not_le]
  refine ⟨alertIter_timer cfg cap ema dt hema, ?_, hiff, ?_⟩
  · intro n hb
    rw [← Bool.not_eq_true]
    intro hact
    exact absurd ((hiff n).mp hact).1 (by linarith)
  · intro m n hm hn
    match m, n with
    | 0, _ => simp [activatedAt] at hm
    | _ + 1, 0 => simp [activatedAt] at hn
    | a + 1, b + 1 =>
        obtain ⟨ha1, ha2⟩ := (hiff a).mp hm
        obtain ⟨hb1, hb2⟩ := (hiff b).mp hn
        rcases lt_trichotomy a b with hab | hab | hab
        · exfalso
          have : ((a + 1 : ℕ) : ℚ) * dt ≤ (b : ℚ) * dt := by
            have hc : ((a + 1 : ℕ) : ℚ) ≤ (b : ℚ) := by exact_mod_cast hab
            exact mul_le_mul_of_nonneg_right hc hdt
          linarith
        · rw [hab]
        · exfalso
          have : ((b + 1 : ℕ) : ℚ) * dt ≤ (a : ℚ) * dt := by
            have hc : ((b + 1 : ℕ) : ℚ) ≤ (a : ℚ) := by exact_mod_cast hab
            exact mul_le_mul_of_nonneg_right hc hdt
          linarith

/-- Witness for C3 at the scenario of the spec: hysteresis time 3,
capacity 5, smoothed count 6, dt 1; the activation fires on the third
call and not on the first two. -/
theorem alert_hysteresis_spec_witness :
    activatedAt { hysteresis_time := 3 } 5 6 1 1 = false ∧
    activatedAt { hysteresis_time := 3 } 5 6 1 2 = false ∧
    activatedAt { hysteresis_time := 3 } 5 6 1 3 = true := by
  have h := alert_hysteresis_spec { hysteresis_time := 3 } 5 6 1
    (by norm_num) (by norm_num) (by norm_num) (by norm_num)
  refine ⟨h.2.1 0 (by norm_num), h.2.1 1 (by norm_num), ?_⟩
  exact (h.2.2.1 2).mpr (by norm_num)

/-- C2 (divergence between code and configured offset): the alert
clearing threshold of the source is the literal max(0, capacity - 0.5),
not capacity minus the configured alert_clear_offset.  With
alert_clear_offset configured to 2 and capacity 5, one alert step
clears a notified cell whose smoothed count is 4, although 4 is
strictly above capacity minus the configured offset, so the claimed
if-and-only-if clearing condition fails; with the default
configuration, a notified cell whose smoothed count equals the
capacity exactly stays notified. -/
theorem alert_clear_offset_ignored :
    ((alertStep { alert_clear_offset := 2 } 5 4 1 ⟨0, true⟩).1.notified = false ∧
     (alertStep { alert_clear_offset := 2 } 5 4 1 ⟨0, true⟩).2.cleared = true ∧
     ¬ ((4 : ℚ) ≤ (5 : ℚ) - (MonitoringConfig.alert_clear_offset { alert_clear_offset := 2 }))) ∧
    ((alertStep {} 5 5 1 ⟨0, true⟩).1.notified = true) := by
  constructor
  · refine ⟨?_, ?_, ?_⟩ <;> norm_num [alertStep]
  · norm_num [alertStep]

/-- C7: world_to_image_point applies the inverse homography and
truncates both coordinates toward zero (the magnitude of the truncation
of q is the floor of the magnitude of q, so no rounding up ever
happens), and it returns exactly (0, 0) on a transform error; being a
total function, it propagates no exception. -/
theorem world_to_image_point_spec (m : Mat3) (x y : ℚ) :
    (∀ p : ℚ × ℚ, applyInvHomography m x y = Except.ok p →
      world_to_image_point m x y = (pyInt p.1, pyInt p.2)) ∧
    (∀ e : Unit, applyInvHomography m x y = Except.error e →
      world_to_image_point m x y = (0, 0)) ∧
    (∀ q : ℚ, |pyInt q| = ⌊|q|⌋) := by
  refine ⟨?_, ?_, ?_⟩
  · intro p h
    unfold world_to_image_point
    rw [h]
  · intro e h
    unfold world_to_image_point
    rw [h]
  · intro q
    unfold pyInt
    rcases le_or_lt 0 q with hq | hq
    · rw [if_pos hq, abs_of_nonneg hq, abs_of_nonneg (Int.floor_nonneg.mpr hq)]
    · rw [if_neg (not_le.mpr hq), abs_of_neg hq,
        abs_of_nonpos (Int.ceil_le.mpr (by exact_mod_cast hq.le)), ← Int.floor_neg]

/-- Witness for C7: a concrete homography sending (2, 3) to
(7/2, -9/4), truncated to (3, -2), and a concrete degenerate
homography on which the result is (0, 0). -/
theorem world_to_image_point_spec_witness :
    world_to_image_point ⟨1, 0, 3/2, 0, 1, -21/4, 0, 0, 1⟩ 2 3 = (3, -2) ∧
    world_to_image_point ⟨1, 0, 0, 0, 1, 0, 0, 0, 0⟩ 2 3 = (0, 0) := by
  constructor
  · have h := (world_to_image_point_spec ⟨1, 0, 3/2, 0, 1, -21/4, 0, 0, 1⟩ 2 3).1
      (7/2, -9/4) (by norm_num [applyInvHomography])
    rw [h]
    norm_num [pyInt]
    rw [Int.ceil_eq_iff]
    norm_num
  · exact (world_to_image_point_spec ⟨1, 0, 0, 0, 1, 0, 0, 0, 0⟩ 2 3).2.1 ()
      (by norm_num [applyInvHomography])

/-- C10: an update_tracks call with an empty detection list ages every
track by exactly one and changes nothing else: the resulting state
keeps the identity counter and configuration, the returned list is the
old track list with every age bumped, every old track reappears with
only its age changed (its identity, bounding box, world position and
confidence are untouched), and in particular a track whose age already
exceeds max_age is still returned. -/
theorem update_tracks_empty_spec (s : TrackerState) :
    (update_tracks s []).1 = { s with tracks := s.tracks.map bump } ∧
    (update_tracks s []).2 = s.tracks.map bump ∧
    (update_tracks s []).1.next_id = s.next_id ∧
    (∀ t : TrackData, (bump t).track_id = t.track_id ∧ (bump t).bbox = t.bbox ∧
      (bump t).world_position = t.world_position ∧
      (bump t).confidence = t.confidence ∧ (bump t).age = t.age + 1) ∧
    (∀ tr ∈ s.tracks, bump tr ∈ (update_tracks s []).2) := by
  refine ⟨rfl, rfl, rfl, fun t => ⟨rfl, rfl, rfl, rfl, rfl⟩, ?_⟩
  intro tr htr
  exact List.mem_map_of_mem bump htr

/-- Witness for C10: a tracker with max_age 0 holding one track of age
5 returns that track, aged to 6, from an empty-detection update. -/
theorem update_tracks_empty_spec_witness :
    bump ⟨1, (0, 0, 2, 2), (1, 1), 1, 5, true⟩ ∈
      (update_tracks
        { next_id := 2,
          tracks := [⟨1, (0, 0, 2, 2), (1, 1), 1, 5, true⟩],
          max_age := 0, distance_threshold := 80 } []).2 := by
  exact (update_tracks_empty_spec _).2.2.2.2 _ (by simp)

/-- Counterexample to C1 as stated: with max_age 0, a single
update_tracks call with an empty detection list is a sequence of
max_age + 1 consecutive calls in which the track matches no detection,
yet the track (identity 1) is still present in the returned list,
because the empty-detection branch of update_tracks never runs
remove_old_tracks. -/
theorem track_expiry_empty_counterexample :
    ∃ tr ∈ (update_tracks
      { next_id := 2,
        tracks := [⟨1, (0, 0, 2, 2), (1, 1), 1, 0, true⟩],
        max_age := 0, distance_threshold := 80 } []).2, tr.track_id = 1 := by
  refine ⟨⟨1, (0, 0, 2, 2), (1, 1), 1, 1, true⟩, ?_, rfl⟩
  simp [update_tracks, ageTracks, bump]

/-! ## Capacity and EMA lemmas over the reals -/

theorem pyIntReal_of_nonneg (x : ℝ) (hx : 0 ≤ x) : pyIntReal x = ⌊x⌋ := by
  rw [pyIntReal, if_pos hx]

/-- C5: for fixed positive cell dimensions, the computed cell capacity
is antitone in the person radius and never below 1. -/
theorem cellCapacity_antitone (cw ch r1 r2 : ℝ)
    (hcw : 0 < cw) (hch : 0 < ch) (hr1 : 0 < r1) (hr : r1 ≤ r2) :
    cellCapacity cw ch r2 ≤ cellCapacity cw ch r1 ∧
    1 ≤ cellCapacity cw ch r2 := by
  have hr2 : 0 < r2 := lt_of_lt_of_le hr1 hr
  have hA : 0 < cw * ch := mul_pos hcw hch
  have hp1 : 0 < Real.pi * r1 ^ 2 := by positivity
  have hp2 : 0 < Real.pi * r2 ^ 2 := by positivity
  have hple : Real.pi * r1 ^ 2 ≤ Real.pi * r2 ^ 2 := by
    have : r1 ^ 2 ≤ r2 ^ 2 := by nlinarith
    nlinarith [Real.pi_pos]
  have hq2 : 0 ≤ (cw * ch) / (Real.pi * r2 ^ 2) := le_of_lt (div_pos hA hp2)
  have hq1 : 0 ≤ (cw * ch) / (Real.pi * r1 ^ 2) := le_of_lt (div_pos hA hp1)
  have hqle : (cw * ch) / (Real.pi * r2 ^ 2) ≤ (cw * ch) / (Real.pi * r1 ^ 2) := by
    gcongr
  constructor
  · unfold cellCapacity
    rw [pyIntReal_of_nonneg _ hq1, pyIntReal_of_nonneg _ hq2]
    exact max_le_max le_rfl (Int.floor_le_floor hqle)
  · exact le_max_left 1 _

/-- Witness for C5: radii 1 and 2 on 2 by 2 cells. -/
theorem cellCapacity_antitone_witness :
    (0 : ℝ) < 2 ∧ (0 : ℝ) < 1 ∧ (1 : ℝ) ≤ 2 ∧
    (cellCapacity 2 2 2 ≤ cellCapacity 2 2 1 ∧ 1 ≤ cellCapacity 2 2 2) :=
  ⟨by norm_num, by norm_num, by norm_num,
   cellCapacity_antitone 2 2 1 2 (by norm_num) (by norm_num) (by norm_num) (by norm_num)⟩

theorem emaIter_sub (alpha c y0 : ℝ) :
    ∀ t : ℕ, emaIter alpha c y0 t - c = (1 - alpha) ^ t * (y0 - c) := by
  intro t
  induction t with
  | zero => simp [emaIter]
  | succ k ih =>
      have : emaIter alpha c y0 (k + 1) - c
          = (1 - alpha) * (emaIter alpha c y0 k - c) := by
        simp only [emaIter, emaStep]
        ring
      rw [this, ih, pow_succ]
      ring

/-- C8: with a constant input c every tick and smoothing factor alpha
in (0, 1], the distance of the smoothed value from c after t ticks is
exactly (1 - alpha) to the t times the initial distance, the distance
never increases from one tick to the next, the iteration converges to
c, and for alpha strictly below 1 the value is within one percent of
the initial distance from c after ceil(log(0.01) / log(1 - alpha))
ticks. -/
theorem ema_convergence (alpha c y0 : ℝ) (h0 : 0 < alpha) (h1 : alpha ≤ 1) :
    (∀ t : ℕ, |emaIter alpha c y0 t - c| = (1 - alpha) ^ t * |y0 - c|) ∧
    (∀ t : ℕ, |emaIter alpha c y0 (t + 1) - c| ≤ |emaIter alpha c y0 t - c|) ∧
    Filter.Tendsto (emaIter alpha c y0) Filter.atTop (nhds c) ∧
    (alpha < 1 → ∀ t : ℕ,
      ⌈Real.log (1 / 100) / Real.log (1 - alpha)⌉₊ ≤ t →
      |emaIter alpha c y0 t - c| ≤ (1 / 100) * |y0 - c|) := by
  have hr0 : 0 ≤ 1 - alpha := by linarith
  have hr1 : 1 - alpha < 1 := by linarith
  have habs : ∀ t : ℕ, |emaIter alpha c y0 t - c| = (1 - alpha) ^ t * |y0 - c| := by
    intro t
    rw [emaIter_sub, abs_mul, abs_pow, abs_of_nonneg hr0]
  refine ⟨habs, ?_, ?_, ?_⟩
  · intro t
    rw [habs, habs, pow_succ]
    have h2 : (1 - alpha) ^ t * (1 - alpha) ≤ (1 - alpha) ^ t * 1 := by
      have := pow_nonneg hr0 t
      nlinarith
    nlinarith [abs_nonneg (y0 - c), pow_nonneg hr0 t]
  · have hpow : Filter.Tendsto (fun t : ℕ => (1 - alpha) ^ t * (y0 - c))
        Filter.atTop (nhds 0) := by
      have h := tendsto_pow_atTop_nhds_zero_of_lt_one hr0 hr1
      have := h.mul_const (y0 - c)
      simpa using this
    have heq : ∀ t : ℕ, emaIter alpha c y0 t = c + (1 - alpha) ^ t * (y0 - c) := by
      intro t
      have := emaIter_sub alpha c y0 t
      linarith
    have := (tendsto_const_nhds (x := c) (f := Filter.atTop (α := ℕ))).add hpow
    rw [add_zero] at this
    exact this.congr (fun t => (heq t).symm)
  · intro hlt t ht
    have hr0' : 0 < 1 - alpha := by linarith
    have hlog : Real.log (1 - alpha) < 0 := Real.log_neg hr0' hr1
    have hdiv : Real.log (1 / 100) / Real.log (1 - alpha) ≤ (t : ℝ) := by
      have := Nat.ceil_le.mp ht
      exact_mod_cast this
    have hmul : (t : ℝ) * Real.log (1 - alpha) ≤ Real.log (1 / 100) :=
      (div_le_iff_of_neg hlog).mp hdiv
    have hpowle : (1 - alpha) ^ t ≤ 1 / 100 := by
      have hexp : (1 - alpha) ^ t = Real.exp ((t : ℝ) * Real.log (1 - alpha)) := by
        rw [Real.exp_nat_mul, Real.exp_log hr0']
      rw [hexp]
      calc Real.exp ((t : ℝ) * Real.log (1 - alpha))
          ≤ Real.exp (Real.log (1 / 100)) := Real.exp_le_exp.mpr hmul
        _ = 1 / 100 := Real.exp_log (by norm_num)
    rw [habs]
    exact mul_le_mul_of_nonneg_right hpowle (abs_nonneg (y0 - c))

/-- Witness for C8: alpha one half, constant input 1, starting at 0. -/
theorem ema_convergence_witness :
    (0 : ℝ) < 1/2 ∧ (1/2 : ℝ) ≤ 1 ∧
    ((∀ t : ℕ, |emaIter (1/2) 1 0 t - 1| = (1 - 1/2) ^ t * |0 - 1|) ∧
     (∀ t : ℕ, |emaIter (1/2) 1 0 (t + 1) - 1| ≤ |emaIter (1/2) 1 0 t - 1|) ∧
     Filter.Tendsto (emaIter (1/2) 1 0) Filter.atTop (nhds 1) ∧
     ((1/2 : ℝ) < 1 → ∀ t : ℕ,
       ⌈Real.log (1 / 100) / Real.log (1 - 1/2)⌉₊ ≤ t →
       |emaIter (1/2) 1 0 t - 1| ≤ (1 / 100) * |0 - 1|)) :=
  ⟨by norm_num, by norm_num, ema_convergence (1/2) 1 0 (by norm_num) (by norm_num)⟩

/-! ## Nonnegativity of the occupancy state -/

theorem addTrackCounts_nonneg (cfg : MonitoringConfig) (rows cols : ℕ)
    (poly : WorldRect) (counts : ℤ → ℤ → ℚ)
    (h : ∀ r c, 0 ≤ counts r c) : ∀ r c, 0 ≤ addTrackCounts cfg rows cols poly counts r c := by
  intro r c
  unfold addTrackCounts
  split
  · exact add_nonneg (h r c) (le_max_left 0 _)
  · exact h r c

theorem currentCounts_nonneg (cfg : MonitoringConfig) (rows cols : ℕ)
    (proj : ℤ × ℤ × ℤ × ℤ → Option WorldRect) (tracks : List TrackData) :
    ∀ r c, 0 ≤ currentCounts cfg rows cols proj tracks r c := by
  unfold currentCounts
  suffices h : ∀ (init : ℤ → ℤ → ℚ), (∀ r c, 0 ≤ init r c) →
      ∀ r c, 0 ≤ (tracks.foldl
        (fun counts tr =>
          match proj tr.bbox with
          | none => counts
          | some poly =>
              if poly.area ≤ 1/1000000 then counts
              else addTrackCounts cfg rows cols poly counts)
        init) r c by
    exact h _ (fun _ _ => le_refl 0)
  induction tracks with
  | nil => intro init hinit; exact hinit
  | cons t ts ih =>
      intro init hinit
      simp only [List.foldl]
      apply ih
      intro r c
      cases hp : proj t.bbox with
      | none => simp only [hp]; exact hinit r c
      | some poly =>
          simp only [hp]
          by_cases ha : poly.area ≤ 1/1000000
          · rw [if_pos ha]; exact hinit r c
          · rw [if_neg ha]
            exact addTrackCounts_nonneg cfg rows cols poly init hinit r c

theorem alertStep_timer_nonneg (cfg : MonitoringConfig) (cap : ℤ) (ema dt : ℚ)
    (st : CellState) (hdt : 0 ≤ dt) (ht : 0 ≤ st.timer) :
    0 ≤ (alertStep cfg cap ema dt st).1.timer := by
  unfold alertStep
  split
  · linarith
  · exact le_max_left 0 _

/-- C9: one OccupancyGrid.update call with nonnegative dt and a
smoothing factor in (0, 1] preserves nonnegativity of every entry of
ema_counts and of every entry of timers: per-cell contributions are
clamped to the interval from 0 to 1, the moving average of nonnegative
inputs stays nonnegative, and the timer decay branch floors at 0. -/
theorem update_preserves_nonneg (cfg : MonitoringConfig)
    (proj : ℤ × ℤ × ℤ × ℤ → Option WorldRect) (g : GridState)
    (tracks : List TrackData) (dt : ℚ)
    (hdt : 0 ≤ dt) (ha0 : 0 < cfg.ema_alpha) (ha1 : cfg.ema_alpha ≤ 1)
    (hema : ∀ r c, 0 ≤ g.ema_counts r c) (htim : ∀ r c, 0 ≤ g.timers r c) :
    (∀ r c, 0 ≤ (GridState.update cfg proj g tracks dt).ema_counts r c) ∧
    (∀ r c, 0 ≤ (GridState.update cfg proj g tracks dt).timers r c) := by
  have hcounts := currentCounts_nonneg cfg g.rows g.cols proj tracks
  have hema1 : ∀ r c, 0 ≤ cfg.ema_alpha * currentCounts cfg g.rows g.cols proj tracks r c
      + (1 - cfg.ema_alpha) * g.ema_counts r c := by
    intro r c
    have h1 := mul_nonneg ha0.le (hcounts r c)
    have h2 := mul_nonneg (by linarith : (0:ℚ) ≤ 1 - cfg.ema_alpha) (hema r c)
    linarith
  constructor
  · intro r c
    simp only [GridState.update, GridState.update_alerts]
    exact hema1 r c
  · intro r c
    simp only [GridState.update, GridState.update_alerts]
    split
    · exact alertStep_timer_nonneg cfg g.cell_capacity _ dt _ hdt (htim r c)
    · exact htim r c

/-- Witness for C9: the default configuration, a one-cell zero grid, no
tracks, dt 0. -/
theorem update_preserves_nonneg_witness :
    (∀ r c : ℤ, 0 ≤ (GridState.update {} (fun _ => none)
      { rows := 1, cols := 1, cell_capacity := 1,
        ema_counts := fun _ _ => 0, timers := fun _ _ => 0,
        notified := fun _ _ => false } [] 0).ema_counts r c) ∧
    (∀ r c : ℤ, 0 ≤ (GridState.update {} (fun _ => none)
      { rows := 1, cols := 1, cell_capacity := 1,
        ema_counts := fun _ _ => 0, timers := fun _ _ => 0,
        notified := fun _ _ => false } [] 0).timers r c) :=
  update_preserves_nonneg {} (fun _ => none) _ [] 0 (le_refl 0)
    (by norm_num) (by norm_num)
    (fun _ _ => le_refl 0) (fun _ _ => le_refl 0)

/-! ## The concrete grid scenario of the spec -/

theorem floor_sixteen_div_pi : ⌊(16 : ℝ) / Real.pi⌋ = 5 := by
  have hpi1 : Real.pi < 3.15 := Real.pi_lt_d2
  have hpi2 : 3.14 < Real.pi := Real.pi_gt_d2
  have hpos : (0 : ℝ) < Real.pi := Real.pi_pos
  rw [Int.floor_eq_iff]
  constructor
  · push_cast
    rw [le_div_iff₀ hpos]
    nlinarith
  · push_cast
    rw [div_lt_iff₀ hpos]
    nlinarith

theorem cellCapacity_scenario : cellCapacity 2 2 (1/2) = 5 := by
  have hval : (2 : ℝ) * 2 / (Real.pi * (1/2) ^ 2) = 16 / Real.pi := by
    field_simp
    ring
  have hnn : (0 : ℝ) ≤ 2 * 2 / (Real.pi * (1/2) ^ 2) := by
    have := Real.pi_pos
    positivity
  rw [cellCapacity, pyIntReal_of_nonneg _ hnn, hval, floor_sixteen_div_pi]
  norm_num

/-- C4: a grid with 2 by 2 meter cells over a 10 by 8 meter world has 4
rows, 5 columns and, with person radius one half, cell capacity
floor(4 / (pi / 4)) = 5; and one update call on the all-zero grid with
smoothing factor 0.4 and a single track whose world polygon lies
entirely within cell (0, 0) with area above the epsilon 1e-6 puts
exactly 0.4 into ema_counts at (0, 0), per the moving-average
recurrence. -/
theorem grid_scenario_spec (poly : WorldRect)
    (h1 : 0 ≤ poly.minx) (h2 : poly.maxx ≤ 2)
    (h3 : 0 ≤ poly.miny) (h4 : poly.maxy ≤ 2)
    (harea : 1/1000000 < poly.area) :
    gridRows 8 2 = 4 ∧ gridCols 10 2 = 5 ∧ cellCapacity 2 2 (1/2) = 5 ∧
    (GridState.update { cell_width := 2, cell_height := 2, ema_alpha := 2/5 }
      (fun _ => some poly)
      { rows := 4, cols := 5, cell_capacity := 5,
        ema_counts := fun _ _ => 0, timers := fun _ _ => 0,
        notified := fun _ _ => false }
      [⟨1, (0, 0, 0, 0), (0, 0), 1, 0, true⟩] 1).ema_counts 0 0 = 2/5 := by
  refine ⟨?_, ?_, cellCapacity_scenario, ?_⟩
  · rw [gridRows, show (8 : ℝ) / 2 = ((4 : ℤ) : ℝ) by norm_num, Int.ceil_intCast]
  · rw [gridCols, show (10 : ℝ) / 2 = ((5 : ℤ) : ℝ) by norm_num, Int.ceil_intCast]
  · have hprod : 0 < poly.area := lt_trans (by norm_num) harea
    have hdx : 0 < poly.maxx - poly.minx := by
      by_contra hle
      push_neg at hle
      rw [WorldRect.area, max_eq_left hle, zero_mul] at hprod
      exact lt_irrefl 0 hprod
    have hdy : 0 < poly.maxy - poly.miny := by
      by_contra hle
      push_neg at hle
      rw [WorldRect.area, max_eq_left hle, mul_zero] at hprod
      exact lt_irrefl 0 hprod
    have hminx2 : poly.minx < 2 := by linarith
    have hminy2 : poly.miny < 2 := by linarith
    have hmaxy0 : 0 ≤ poly.maxy := by linarith
    have hmaxx0 : 0 ≤ poly.maxx := by linarith
    simp only [GridState.update, GridState.update_alerts, currentCounts, List.foldl]
    have hcond : max 0 ⌊poly.miny / 2⌋ ≤ (0 : ℤ) ∧
        (0 : ℤ) ≤ min ((4 : ℕ) - 1 : ℤ) ⌊poly.maxy / 2⌋ ∧
        max 0 ⌊poly.minx / 2⌋ ≤ (0 : ℤ) ∧
        (0 : ℤ) ≤ min ((5 : ℕ) - 1 : ℤ) ⌊poly.maxx / 2⌋ := by
      refine ⟨?_, ?_, ?_, ?_⟩
      · have : ⌊poly.miny / 2⌋ < 1 := Int.floor_lt.mpr (by push_cast; linarith)
        omega
      · refine le_min (by norm_num) (Int.floor_nonneg.mpr (by positivity))
      · have : ⌊poly.minx / 2⌋ < 1 := Int.floor_lt.mpr (by push_cast; linarith)
        omega
      · refine le_min (by norm_num) (Int.floor_nonneg.mpr (by positivity))
    have hinter : poly.inter (cellBox
        { cell_width := 2, cell_height := 2, ema_alpha := 2/5 } 0 0) = poly := by
      rw [cellBox]
      norm_num
      rw [WorldRect.inter]
      rw [max_eq_left h1, max_eq_left h3, min_eq_left h2, min_eq_left h4]
    have hone : addTrackCounts { cell_width := 2, cell_height := 2, ema_alpha := 2/5 }
        4 5 poly (fun _ _ => 0) 0 0 = 1 := by
      rw [addTrackCounts]
      simp only
      rw [if_pos]
      · rw [hinter, div_self (ne_of_gt hprod)]
        norm_num
      · exact hcond
    rw [if_neg (not_le.mpr harea)]
    rw [hone]
    norm_num

/-- Witness for C4: the square with corners (1/2, 1/2) and (1, 1), of
area 1/4, lies entirely within cell (0, 0). -/
theorem grid_scenario_spec_witness :
    gridRows 8 2 = 4 ∧ gridCols 10 2 = 5 ∧ cellCapacity 2 2 (1/2) = 5 ∧
    (GridState.update { cell_width := 2, cell_height := 2, ema_alpha := 2/5 }
      (fun _ => some ⟨1/2, 1/2, 1, 1⟩)
      { rows := 4, cols := 5, cell_capacity := 5,
        ema_counts := fun _ _ => 0, timers := fun _ _ => 0,
        notified := fun _ _ => false }
      [⟨1, (0, 0, 0, 0), (0, 0), 1, 0, true⟩] 1).ema_counts 0 0 = 2/5 :=
  grid_scenario_spec ⟨1/2, 1/2, 1, 1⟩ (by norm_num) (by norm_num)
    (by norm_num) (by norm_num) (by norm_num [WorldRect.area])

/-! ## Lemmas about track creation -/

theorem createWith_next_le (used : List ℕ) :
    ∀ (cents : List (List ℚ × ℚ × ℚ)) (nid i : ℕ),
      nid ≤ (createWith used nid i cents).2 := by
  intro cents
  induction cents with
  | nil => intro nid i; simp [createWith]
  | cons c rest ih =>
      intro nid i
      by_cases h : i ∈ used
      · simpa [createWith, h] using ih nid (i + 1)
      · have := ih (nid + 1) (i + 1)
        simp only [createWith, if_neg h]
        omega

theorem createWith_mem_id (used : List ℕ) :
    ∀ (cents : List (List ℚ × ℚ × ℚ)) (nid i : ℕ),
      ∀ tr ∈ (createWith used nid i cents).1,
        nid ≤ tr.track_id ∧ tr.track_id < (createWith used nid i cents).2 := by
  intro cents
  induction cents with
  | nil => intro nid i tr htr; simp [createWith] at htr
  | cons c rest ih =>
      intro nid i tr htr
      by_cases h : i ∈ used
      · rw [createWith, if_pos h] at htr ⊢
        exact ih nid (i + 1) tr htr
      · rw [createWith, if_neg h] at htr ⊢
        simp only [List.mem_cons] at htr
        have hle := createWith_next_le used rest (nid + 1) (i + 1)
        rcases htr with rfl | htr
        · dsimp only
          omega
        · have := ih (nid + 1) (i + 1) tr htr
          dsimp only
          omega

theorem createWith_nodup (used : List ℕ) :
    ∀ (cents : List (List ℚ × ℚ × ℚ)) (nid i : ℕ),
      (((createWith used nid i cents).1).map TrackData.track_id).Nodup := by
  intro cents
  induction cents with
  | nil => intro nid i; simp [createWith]
  | cons c rest ih =>
      intro nid i
      by_cases h : i ∈ used
      · rw [createWith, if_pos h]
        exact ih nid (i + 1)
      · rw [createWith, if_neg h]
        simp only [List.map_cons, List.nodup_cons]
        refine ⟨?_, ih (nid + 1) (i + 1)⟩
        intro hmem
        obtain ⟨tr, htr, hid⟩ := List.mem_map.mp hmem
        have := (createWith_mem_id used rest (nid + 1) (i + 1) tr htr).1
        omega

theorem createWith_spawn (used : List ℕ) :
    ∀ (cents : List (List ℚ × ℚ × ℚ)) (nid i k : ℕ) (hk : k < cents.length),
      (i + k) ∉ used →
      ∃ tr ∈ (createWith used nid i cents).1,
        nid ≤ tr.track_id ∧
        tr.bbox = detBbox (cents.get ⟨k, hk⟩).1 ∧
        tr.world_position = (cents.get ⟨k, hk⟩).2 ∧
        tr.confidence = detConf (cents.get ⟨k, hk⟩).1 ∧
        tr.age = 0 ∧ tr.confirmed = true := by
  intro cents
  induction cents with
  | nil => intro nid i k hk; simp at hk
  | cons c rest ih =>
      intro nid i k hk hku
      cases k with
      | zero =>
          simp only [Nat.add_zero] at hku
          rw [createWith, if_neg hku]
          exact ⟨⟨nid, detBbox c.1, c.2, detConf c.1, 0, true⟩,
            List.mem_cons_self _ _, le_refl _, rfl, rfl, rfl, rfl, rfl⟩
      | succ k' =>
          have hk' : k' < rest.length := by simpa using hk
          have hku' : (i + 1 + k') ∉ used := by
            have : i + 1 + k' = i + (k' + 1) := by omega
            rw [this]
            exact hku
          by_cases h : i ∈ used
          · rw [createWith, if_pos h]
            obtain ⟨tr, htr, hrest⟩ := ih nid (i + 1) k' hk' hku'
            exact ⟨tr, htr, by simpa using hrest⟩
          · rw [createWith, if_neg h]
            obtain ⟨tr, htr, h1, hrest⟩ := ih (nid + 1) (i + 1) k' hk' hku'
            exact ⟨tr, List.mem_cons_of_mem _ htr, by omega, by simpa using hrest⟩

/-! ## Lemmas about the detection scan -/

theorem scanDetections_nil (thr : ℚ) (pos : ℚ × ℚ) (used : List ℕ) (i : ℕ)
    (best : Option (ℕ × (List ℚ × ℚ × ℚ) × ℚ)) :
    scanDetections thr pos used i [] best = best := rfl

theorem scanDetections_cons (thr : ℚ) (pos : ℚ × ℚ) (used : List ℕ) (i : ℕ)
    (c : List ℚ × ℚ × ℚ) (rest : List (List ℚ × ℚ × ℚ))
    (best : Option (ℕ × (List ℚ × ℚ × ℚ) × ℚ)) :
    scanDetections thr pos used i (c :: rest) best =
    scanDetections thr pos used (i + 1) rest
      (if i ∈ used then best
       else
         match best with
         | none =>
             if 0 < thr ∧ sqDist pos c.2 < thr ^ 2 then some (i, c, sqDist pos c.2)
             else none
         | some (j, b, bd) =>
             if sqDist pos c.2 < bd ∧ (0 < thr ∧ sqDist pos c.2 < thr ^ 2) then
               some (i, c, sqDist pos c.2)
             else some (j, b, bd)) := rfl

theorem scanDetections_dominates (thr : ℚ) (pos : ℚ × ℚ) (used : List ℕ) :
    ∀ (cents : List (List ℚ × ℚ × ℚ)) (i : ℕ) (j : ℕ) (c : List ℚ × ℚ × ℚ) (d : ℚ),
      ∃ j' c' d', scanDetections thr pos used i cents (some (j, c, d)) = some (j', c', d')
        ∧ d' ≤ d := by
  intro cents
  induction cents with
  | nil => intro i j c d; exact ⟨j, c, d, rfl, le_refl d⟩
  | cons c0 rest ih =>
      intro i j c d
      rw [scanDetections_cons]
      by_cases hu : i ∈ used
      · rw [if_pos hu]; exact ih (i + 1) j c d
      · rw [if_neg hu]
        dsimp only
        by_cases hcond : sqDist pos c0.2 < d ∧ (0 < thr ∧ sqDist pos c0.2 < thr ^ 2)
        · rw [if_pos hcond]
          obtain ⟨j', c', d', heq, hle⟩ := ih (i + 1) i c0 (sqDist pos c0.2)
          exact ⟨j', c', d', heq, le_trans hle (le_of_lt hcond.1)⟩
        · rw [if_neg hcond]; exact ih (i + 1) j c d

theorem scanDetections_finds (thr : ℚ) (pos : ℚ × ℚ) (used : List ℕ) :
    ∀ (cents : List (List ℚ × ℚ × ℚ)) (i : ℕ)
      (best : Option (ℕ × (List ℚ × ℚ × ℚ) × ℚ))
      (k : ℕ) (hk : k < cents.length),
      (i + k) ∉ used → 0 < thr → sqDist pos (cents.get ⟨k, hk⟩).2 < thr ^ 2 →
      ∃ j' c' d', scanDetections thr pos used i cents best = some (j', c', d')
        ∧ d' ≤ sqDist pos (cents.get ⟨k, hk⟩).2 := by
  intro cents
  induction cents with
  | nil => intro i best k hk; simp at hk
  | cons c0 rest ih =>
      intro i best k hk hku hthr hlt
      rw [scanDetections_cons]
      cases k with
      | zero =>
          simp only [Nat.add_zero] at hku
          rw [if_neg hku]
          simp only [List.get] at hlt ⊢
          cases best with
          | none =>
              dsimp only
              rw [if_pos ⟨hthr, hlt⟩]
              exact scanDetections_dominates thr pos used rest (i + 1) i c0 _
          | some b =>
              obtain ⟨j, c, bd⟩ := b
              dsimp only
              by_cases hcond : sqDist pos c0.2 < bd ∧ (0 < thr ∧ sqDist pos c0.2 < thr ^ 2)
              · rw [if_pos hcond]
                exact scanDetections_dominates thr pos used rest (i + 1) i c0 _
              · rw [if_neg hcond]
                have hbd : bd ≤ sqDist pos c0.2 := by
                  by_contra hlt2
                  push_neg at hlt2
                  exact hcond ⟨hlt2, hthr, hlt⟩
                obtain ⟨j', c', d', heq, hle⟩ :=
                  scanDetections_dominates thr pos used rest (i + 1) j c bd
                exact ⟨j', c', d', heq, le_trans hle hbd⟩
      | succ k' =>
          have hk' : k' < rest.length := by simpa using hk
          have hku' : (i + 1 + k') ∉ used := by
            have : i + 1 + k' = i + (k' + 1) := by omega
            rw [this]; exact hku
          have hlt' : sqDist pos (rest.get ⟨k', hk'⟩).2 < thr ^ 2 := by
            simpa only [List.get] using hlt
          exact ih (i + 1) _ k' hk' hku' hthr hlt'

theorem scanDetections_shape (thr : ℚ) (pos : ℚ × ℚ) (used : List ℕ) :
    ∀ (cents : List (List ℚ × ℚ × ℚ)) (i : ℕ)
      (best : Option (ℕ × (List ℚ × ℚ × ℚ) × ℚ)),
      scanDetections thr pos used i cents best = best ∨
      ∃ k, ∃ hk : k < cents.length,
        scanDetections thr pos used i cents best
          = some (i + k, cents.get ⟨k, hk⟩, sqDist pos (cents.get ⟨k, hk⟩).2) ∧
        (i + k) ∉ used ∧ 0 < thr ∧ sqDist pos (cents.get ⟨k, hk⟩).2 < thr ^ 2 := by
  intro cents
  induction cents with
  | nil => intro i best; exact Or.inl rfl
  | cons c0 rest ih =>
      intro i best
      rw [scanDetections_cons]
      have push : ∀ (b : Option (ℕ × (List ℚ × ℚ × ℚ) × ℚ)),
          scanDetections thr pos used (i + 1) rest b = b ∨
          ∃ k, ∃ hk : k < rest.length,
            scanDetections thr pos used (i + 1) rest b
              = some (i + 1 + k, rest.get ⟨k, hk⟩, sqDist pos (rest.get ⟨k, hk⟩).2) ∧
            (i + 1 + k) ∉ used ∧ 0 < thr ∧ sqDist pos (rest.get ⟨k, hk⟩).2 < thr ^ 2 :=
        ih (i + 1)
      have lift : ∀ (b : Option (ℕ × (List ℚ × ℚ × ℚ) × ℚ)),
          (∃ k, ∃ hk : k < rest.length,
            scanDetections thr pos used (i + 1) rest b
              = some (i + 1 + k, rest.get ⟨k, hk⟩, sqDist pos (rest.get ⟨k, hk⟩).2) ∧
            (i + 1 + k) ∉ used ∧ 0 < thr ∧ sqDist pos (rest.get ⟨k, hk⟩).2 < thr ^ 2) →
          ∃ k, ∃ hk : k < (c0 :: rest).length,
            scanDetections thr pos used (i + 1) rest b
              = some (i + k, (c0 :: rest).get ⟨k, hk⟩,
                  sqDist pos ((c0 :: rest).get ⟨k, hk⟩).2) ∧
            (i + k) ∉ used ∧ 0 < thr ∧
            sqDist pos ((c0 :: rest).get ⟨k, hk⟩).2 < thr ^ 2 := by
        intro b hb
        obtain ⟨k, hk, heq, h1, h2, h3⟩ := hb
        refine ⟨k + 1, by simpa using Nat.succ_lt_succ hk, ?_, ?_, h2, ?_⟩
        · have : i + (k + 1) = i + 1 + k := by omega
          rw [this]
          simpa only [List.get] using heq
        · have : i + (k + 1) = i + 1 + k := by omega
          rw [this]; exact h1
        · simpa only [List.get] using h3
      by_cases hu : i ∈ used
      · rw [if_pos hu]
        rcases push best with h | h
        · exact Or.inl h
        · exact Or.inr (lift best h)
      · rw [if_neg hu]
        have self_case : ∀ (hcase :
            (match best with
             | none =>
                 if 0 < thr ∧ sqDist pos c0.2 < thr ^ 2 then some (i, c0, sqDist pos c0.2)
                 else none
             | some (j, b, bd) =>
                 if sqDist pos c0.2 < bd ∧ (0 < thr ∧ sqDist pos c0.2 < thr ^ 2) then
                   some (i, c0, sqDist pos c0.2)
                 else some (j, b, bd)) = some (i, c0, sqDist pos c0.2))
            (hgood : 0 < thr ∧ sqDist pos c0.2 < thr ^ 2),
            (scanDetections thr pos used (i + 1) rest (some (i, c0, sqDist pos c0.2)) = some (i, c0, sqDist pos c0.2) ∨
              ∃ k, ∃ hk : k < rest.length,
                scanDetections thr pos used (i + 1) rest (some (i, c0, sqDist pos c0.2))
                  = some (i + 1 + k, rest.get ⟨k, hk⟩, sqDist pos (rest.get ⟨k, hk⟩).2) ∧
                (i + 1 + k) ∉ used ∧ 0 < thr ∧ sqDist pos (rest.get ⟨k, hk⟩).2 < thr ^ 2) →
            ∃ k, ∃ hk : k < (c0 :: rest).length,
              scanDetections thr pos used (i + 1) rest (some (i, c0, sqDist pos c0.2))
                = some (i + k, (c0 :: rest).get ⟨k, hk⟩,
                    sqDist pos ((c0 :: rest).get ⟨k, hk⟩).2) ∧
              (i + k) ∉ used ∧ 0 < thr ∧
              sqDist pos ((c0 :: rest).get ⟨k, hk⟩).2 < thr ^ 2 := by
          intro hcase hgood hres
          rcases hres with h | h
          · exact ⟨0, by simp, by simpa only [List.get, Nat.add_zero] using h,
              by simpa using hu, hgood.1, by simpa only [List.get] using hgood.2⟩
          · exact lift _ h
        cases best with
        | none =>
            dsimp only
            by_cases hgood : 0 < thr ∧ sqDist pos c0.2 < thr ^ 2
            · rw [if_pos hgood]
              exact Or.inr (self_case (by dsimp only; rw [if_pos hgood]) hgood (push _))
            · rw [if_neg hgood]
              rcases push none with h | h
              · exact Or.inl h
              · exact Or.inr (lift none h)
        | some b =>
            obtain ⟨j, bc, bd⟩ := b
            dsimp only
            by_cases hcond : sqDist pos c0.2 < bd ∧ (0 < thr ∧ sqDist pos c0.2 < thr ^ 2)
            · rw [if_pos hcond]
              exact Or.inr (self_case (by dsimp only; rw [if_pos hcond]) hcond.2 (push _))
            · rw [if_neg hcond]
              rcases push (some (j, bc, bd)) with h | h
              · exact Or.inl h
              · exact Or.inr (lift _ h)

/-! ## Lemmas about bestMatch and the matching pass -/

theorem bestMatch_some_spec (thr : ℚ) (pos : ℚ × ℚ) (used : List ℕ)
    (cents : List (List ℚ × ℚ × ℚ)) (j : ℕ) (c : List ℚ × ℚ × ℚ) (d : ℚ)
    (h : bestMatch thr pos used cents = some (j, c, d)) :
    j ∉ used ∧ d = sqDist pos c.2 ∧ 0 < thr ∧ d < thr ^ 2 ∧
    ∃ hj : j < cents.length, cents.get ⟨j, hj⟩ = c := by
  rcases scanDetections_shape thr pos used cents 0 none with h0 | ⟨k, hk, heq, h1, h2, h3⟩
  · rw [bestMatch, h0] at h
    exact absurd h (by simp)
  · rw [bestMatch, heq] at h
    have hj : 0 + k = j ∧ (cents.get ⟨k, hk⟩, sqDist pos (cents.get ⟨k, hk⟩).2) = (c, d) := by
      have := Option.some.inj h
      exact ⟨congrArg Prod.fst this, congrArg Prod.snd this⟩
    obtain ⟨hjk, hcd⟩ := hj
    have hc : cents.get ⟨k, hk⟩ = c := congrArg Prod.fst hcd
    have hd : sqDist pos (cents.get ⟨k, hk⟩).2 = d := congrArg Prod.snd hcd
    have hkj : k = j := by omega
    subst hkj
    refine ⟨by simpa using h1, ?_, h2, ?_, ⟨hk, hc⟩⟩
    · rw [← hd, hc]
    · rw [← hd]; exact h3

theorem bestMatch_is_min (thr : ℚ) (pos : ℚ × ℚ) (used : List ℕ)
    (cents : List (List ℚ × ℚ × ℚ)) (j : ℕ) (c : List ℚ × ℚ × ℚ) (d : ℚ)
    (h : bestMatch thr pos used cents = some (j, c, d)) :
    ∀ k, ∀ hk : k < cents.length, k ∉ used →
      d ≤ sqDist pos (cents.get ⟨k, hk⟩).2 := by
  intro k hk hku
  obtain ⟨-, -, hthr, hdlt, -⟩ := bestMatch_some_spec thr pos used cents j c d h
  by_cases hpass : sqDist pos (cents.get ⟨k, hk⟩).2 < thr ^ 2
  · obtain ⟨j', c', d', heq, hle⟩ :=
      scanDetections_finds thr pos used cents 0 none k hk (by simpa using hku) hthr hpass
    rw [bestMatch] at h
    rw [h] at heq
    have : d' = d := by
      have := Option.some.inj heq.symm
      exact (congrArg (fun p => p.2.2) this)
    rw [← this]
    exact hle
  · push_neg at hpass
    exact le_trans (le_of_lt hdlt) hpass

theorem bestMatch_none_spec (thr : ℚ) (pos : ℚ × ℚ) (used : List ℕ)
    (cents : List (List ℚ × ℚ × ℚ))
    (h : bestMatch thr pos used cents = none) :
    ∀ k, ∀ hk : k < cents.length, k ∉ used →
      ¬(0 < thr ∧ sqDist pos (cents.get ⟨k, hk⟩).2 < thr ^ 2) := by
  intro k hk hku hcon
  obtain ⟨j', c', d', heq, -⟩ :=
    scanDetections_finds thr pos used cents 0 none k hk (by simpa using hku)
      hcon.1 hcon.2
  rw [bestMatch] at h
  rw [h] at heq
  exact absurd heq (by simp)

theorem matchTracks_ids (thr : ℚ) :
    ∀ (ts : List TrackData) (used : List ℕ) (cents : List (List ℚ × ℚ × ℚ)),
      ((matchTracks thr ts used cents).1).map TrackData.track_id
        = ts.map TrackData.track_id := by
  intro ts
  induction ts with
  | nil => intro used cents; simp [matchTracks]
  | cons tr rest ih =>
      intro used cents
      cases hbm : bestMatch thr tr.world_position used cents with
      | none =>
          simp only [matchTracks, hbm, List.map_cons]
          rw [ih]
          rfl
      | some b =>
          obtain ⟨i, c, d⟩ := b
          simp only [matchTracks, hbm, List.map_cons]
          rw [ih]

theorem matchTracks_elem (thr : ℚ) :
    ∀ (ts : List TrackData) (used : List ℕ) (cents : List (List ℚ × ℚ × ℚ)),
      ∀ tr' ∈ (matchTracks thr ts used cents).1,
        ∃ tr0 ∈ ts, tr0.track_id = tr'.track_id ∧ (tr' = bump tr0 ∨ tr'.age = 0) := by
  intro ts
  induction ts with
  | nil => intro used cents tr' h; simp [matchTracks] at h
  | cons tr rest ih =>
      intro used cents tr' h
      cases hbm : bestMatch thr tr.world_position used cents with
      | none =>
          simp only [matchTracks, hbm] at h
          rcases List.mem_cons.mp h with rfl | h
          · exact ⟨tr, List.mem_cons_self _ _, rfl, Or.inl rfl⟩
          · obtain ⟨tr0, h0, h1, h2⟩ := ih _ cents tr' h
            exact ⟨tr0, List.mem_cons_of_mem _ h0, h1, h2⟩
      | some b =>
          obtain ⟨i, c, d⟩ := b
          simp only [matchTracks, hbm] at h
          rcases List.mem_cons.mp h with rfl | h
          · exact ⟨tr, List.mem_cons_self _ _, rfl, Or.inr rfl⟩
          · obtain ⟨tr0, h0, h1, h2⟩ := ih _ cents tr' h
            exact ⟨tr0, List.mem_cons_of_mem _ h0, h1, h2⟩

/-! ## Lemmas about the pre-removal phase and the tracker invariant -/

theorem removeOldTracks_mem (ma : ℕ) (ts : List TrackData) (tr : TrackData) :
    tr ∈ removeOldTracks ma ts ↔ tr ∈ ts ∧ tr.age ≤ ma := by
  simp [removeOldTracks]

theorem ageTracks_ids (ts : List TrackData) :
    (ageTracks ts).map TrackData.track_id = ts.map TrackData.track_id := by
  simp only [ageTracks, List.map_map]
  rfl

theorem tracksAfterMatch_next_le (s : TrackerState) (dets : List (List ℚ)) :
    s.next_id ≤ (tracksAfterMatch s dets).2 := by
  by_cases hd : dets = []
  · simp [tracksAfterMatch, hd]
  · by_cases ht : s.tracks = []
    · simp only [tracksAfterMatch, if_neg hd, ht, if_pos rfl]
      exact createWith_next_le [] (centroids dets) s.next_id 0
    · simp only [tracksAfterMatch, if_neg hd, if_neg ht]
      exact createWith_next_le _ (centroids dets) s.next_id 0

theorem tracksAfterMatch_elem (s : TrackerState) (dets : List (List ℚ)) :
    ∀ tr' ∈ (tracksAfterMatch s dets).1,
      (∃ tr0 ∈ s.tracks, tr0.track_id = tr'.track_id ∧ (tr' = bump tr0 ∨ tr'.age = 0)) ∨
      (s.next_id ≤ tr'.track_id ∧ tr'.track_id < (tracksAfterMatch s dets).2) := by
  intro tr' h
  by_cases hd : dets = []
  · simp only [tracksAfterMatch, hd, if_pos rfl] at h ⊢
    obtain ⟨tr0, h0, rfl⟩ := List.mem_map.mp h
    exact Or.inl ⟨tr0, h0, rfl, Or.inl rfl⟩
  · by_cases ht : s.tracks = []
    · simp only [tracksAfterMatch, if_neg hd, ht, if_pos rfl] at h ⊢
      exact Or.inr (createWith_mem_id [] (centroids dets) s.next_id 0 tr' h)
    · simp only [tracksAfterMatch, if_neg hd, if_neg ht] at h ⊢
      rcases List.mem_append.mp h with hm | hc
      · obtain ⟨tr0, h0, h1, h2⟩ :=
          matchTracks_elem s.distance_threshold s.tracks [] (centroids dets) tr' hm
        exact Or.inl ⟨tr0, h0, h1, h2⟩
      · exact Or.inr (createWith_mem_id _ (centroids dets) s.next_id 0 tr' hc)

theorem tracksAfterMatch_nodup (s : TrackerState) (dets : List (List ℚ))
    (hinv : s.Inv) :
    (((tracksAfterMatch s dets).1).map TrackData.track_id).Nodup := by
  by_cases hd : dets = []
  · simp only [tracksAfterMatch, hd, eq_self_iff_true, if_true]
    rw [ageTracks_ids]
    exact hinv.1
  · by_cases ht : s.tracks = []
    · simp only [tracksAfterMatch, if_neg hd, ht, if_pos rfl]
      exact createWith_nodup [] (centroids dets) s.next_id 0
    · simp only [tracksAfterMatch, if_neg hd, if_neg ht, List.map_append]
      refine List.Nodup.append ?_ ?_ ?_
      · rw [matchTracks_ids]
        exact hinv.1
      · exact createWith_nodup _ (centroids dets) s.next_id 0
      · intro a ham hac
        obtain ⟨trm, hm, hidm⟩ := List.mem_map.mp ham
        obtain ⟨trc, hc, hidc⟩ := List.mem_map.mp hac
        have h1 : trm.track_id ∈ s.tracks.map TrackData.track_id := by
          have := matchTracks_ids s.distance_threshold s.tracks [] (centroids dets)
          rw [← this]
          exact List.mem_map_of_mem _ hm
        obtain ⟨tr0, h0, hid0⟩ := List.mem_map.mp h1
        have hlt : trm.track_id < s.next_id := by
          rw [← hid0]
          exact hinv.2 tr0 h0
        have hge := (createWith_mem_id _ (centroids dets) s.next_id 0 trc hc).1
        omega

theorem update_tracks_inv (s : TrackerState) (dets : List (List ℚ))
    (hinv : s.Inv) :
    (update_tracks s dets).1.Inv ∧ s.next_id ≤ (update_tracks s dets).1.next_id ∧
    (update_tracks s dets).1.max_age = s.max_age ∧
    (update_tracks s dets).1.distance_threshold = s.distance_threshold := by
  by_cases hd : dets = []
  · subst hd
    simp only [update_tracks, eq_self_iff_true, if_true]
    refine ⟨⟨?_, ?_⟩, le_refl _, by trivial, by trivial⟩
    · rw [ageTracks_ids]; exact hinv.1
    · intro tr htr
      obtain ⟨tr0, h0, rfl⟩ := List.mem_map.mp htr
      exact hinv.2 tr0 h0
  · simp only [update_tracks, if_neg hd]
    refine ⟨⟨?_, ?_⟩, ?_, by trivial, by trivial⟩
    · have hsub : ((removeOldTracks s.max_age (tracksAfterMatch s dets).1).map
          TrackData.track_id).Sublist
          (((tracksAfterMatch s dets).1).map TrackData.track_id) :=
        (List.filter_sublist _).map TrackData.track_id
      exact (tracksAfterMatch_nodup s dets hinv).sublist hsub
    · intro tr htr
      have hmem := ((removeOldTracks_mem s.max_age _ tr).mp htr).1
      rcases tracksAfterMatch_elem s dets tr hmem with ⟨tr0, h0, hid, -⟩ | ⟨-, hlt⟩
      · have := hinv.2 tr0 h0
        have hle := tracksAfterMatch_next_le s dets
        simp only
        omega
      · simpa using hlt
    · simpa using tracksAfterMatch_next_le s dets

/-! ## Unmatched tracks age and expire -/

theorem unmatched_phase (s : TrackerState) (dets : List (List ℚ)) (tid : ℕ)
    (hinv : s.Inv) (htid : tid < s.next_id) (hunm : UnmatchedIn s dets tid) :
    ∀ tr' ∈ (tracksAfterMatch s dets).1, tr'.track_id = tid →
      ∃ tr0 ∈ s.tracks, tr0.track_id = tid ∧ tr' = bump tr0 := by
  intro tr' hmem hid
  rcases tracksAfterMatch_elem s dets tr' hmem with ⟨tr0, h0, hid0, -⟩ | ⟨hge, -⟩
  · have hid0' : tr0.track_id = tid := by rw [hid0, hid]
    have hbump : bump tr0 ∈ (tracksAfterMatch s dets).1 := hunm tr0 h0 hid0'
    have hnd := tracksAfterMatch_nodup s dets hinv
    have heq : tr' = bump tr0 := by
      apply List.inj_on_of_nodup_map hnd hmem hbump
      show tr'.track_id = (bump tr0).track_id
      rw [hid]
      exact hid0'.symm
    exact ⟨tr0, h0, hid0', heq⟩
  · omega

theorem unmatched_step_age (s : TrackerState) (dets : List (List ℚ)) (tid a : ℕ)
    (hinv : s.Inv) (htid : tid < s.next_id) (hunm : UnmatchedIn s dets tid)
    (hage : ∀ tr ∈ s.tracks, tr.track_id = tid → a ≤ tr.age) :
    ∀ tr' ∈ (update_tracks s dets).1.tracks, tr'.track_id = tid →
      a + 1 ≤ tr'.age := by
  intro tr' hmem hid
  by_cases hd : dets = []
  · subst hd
    simp only [update_tracks, eq_self_iff_true, if_true] at hmem
    obtain ⟨tr0, h0, rfl⟩ := List.mem_map.mp hmem
    have hid0 : tr0.track_id = tid := hid
    have := hage tr0 h0 hid0
    show a + 1 ≤ tr0.age + 1
    omega
  · simp only [update_tracks, if_neg hd] at hmem
    have hmem' := ((removeOldTracks_mem _ _ _).mp hmem).1
    obtain ⟨tr0, h0, hid0, heq⟩ := unmatched_phase s dets tid hinv htid hunm tr' hmem' hid
    have := hage tr0 h0 hid0
    rw [heq]
    show a + 1 ≤ tr0.age + 1
    omega

theorem runCalls_inv :
    ∀ (detss : List (List (List ℚ))) (s : TrackerState), s.Inv →
      (runCalls s detss).Inv ∧ s.next_id ≤ (runCalls s detss).next_id ∧
      (runCalls s detss).max_age = s.max_age := by
  intro detss
  induction detss with
  | nil => intro s hinv; exact ⟨hinv, le_refl _, rfl⟩
  | cons d rest ih =>
      intro s hinv
      have h1 := update_tracks_inv s d hinv
      have h2 := ih (update_tracks s d).1 h1.1
      refine ⟨h2.1, le_trans h1.2.1 h2.2.1, ?_⟩
      show (runCalls (update_tracks s d).1 rest).max_age = s.max_age
      rw [h2.2.2, h1.2.2.1]

theorem runCalls_unmatched_age (tid : ℕ) :
    ∀ (detss : List (List (List ℚ))) (s : TrackerState) (a : ℕ),
      s.Inv → tid < s.next_id → UnmatchedAll tid s detss →
      (∀ tr ∈ s.tracks, tr.track_id = tid → a ≤ tr.age) →
      ∀ tr' ∈ (runCalls s detss).tracks, tr'.track_id = tid →
        a + detss.length ≤ tr'.age := by
  intro detss
  induction detss with
  | nil =>
      intro s a _ _ _ hage tr' h hid
      simpa using hage tr' h hid
  | cons d rest ih =>
      intro s a hinv htid hunm hage tr' h hid
      have hrun : runCalls s (d :: rest) = runCalls (update_tracks s d).1 rest := rfl
      rw [hrun] at h
      have h1 := update_tracks_inv s d hinv
      have hstep := unmatched_step_age s d tid a hinv htid hunm.1 hage
      have := ih (update_tracks s d).1 (a + 1) h1.1 (by omega) hunm.2 hstep tr' h hid
      simp only [List.length_cons]
      omega

theorem unmatchedAll_append (tid : ℕ) :
    ∀ (l1 l2 : List (List (List ℚ))) (s : TrackerState),
      UnmatchedAll tid s (l1 ++ l2) ↔
      (UnmatchedAll tid s l1 ∧ UnmatchedAll tid (runCalls s l1) l2) := by
  intro l1
  induction l1 with
  | nil =>
      intro l2 s
      simp only [List.nil_append]
      constructor
      · intro h; exact ⟨trivial, h⟩
      · intro h; exact h.2
  | cons d rest ih =>
      intro l2 s
      simp only [List.cons_append, UnmatchedAll, List.append_eq]
      rw [ih]
      have : runCalls s (d :: rest) = runCalls (update_tracks s d).1 rest := rfl
      rw [this]
      tauto

theorem runCalls_append (s : TrackerState) (l1 l2 : List (List (List ℚ))) :
    runCalls s (l1 ++ l2) = runCalls (runCalls s l1) l2 := by
  simp [runCalls, List.foldl_append]

/-- C1 (amended): for every track present in the tracker state, after a
sequence of max_age + 1 consecutive update_tracks calls in each of
which that track matches no detection, the track is absent from the set
returned by the last of those calls, provided that last call has a
non-empty detection list.  (The claim as originally stated also covered
a final call with an empty detection list; that case fails on the code
because the empty-detection branch never runs remove_old_tracks.) -/
theorem track_expiry_spec (s : TrackerState) (detss : List (List (List ℚ)))
    (tid : ℕ)
    (hinv : s.Inv)
    (hmem : ∃ tr ∈ s.tracks, tr.track_id = tid)
    (hlen : detss.length = s.max_age + 1)
    (hne : detss ≠ [])
    (hunm : UnmatchedAll tid s detss)
    (hlast : detss.getLast hne ≠ []) :
    ∀ tr ∈ (runCalls s detss).tracks, tr.track_id ≠ tid := by
  obtain ⟨tr0, htr0, hid0⟩ := hmem
  have htid : tid < s.next_id := by rw [← hid0]; exact hinv.2 tr0 htr0
  have hsplit : detss.dropLast ++ [detss.getLast hne] = detss :=
    List.dropLast_append_getLast hne
  have hunm' : UnmatchedAll tid s detss.dropLast ∧
      UnmatchedAll tid (runCalls s detss.dropLast) [detss.getLast hne] := by
    rw [← unmatchedAll_append, hsplit]
    exact hunm
  have hinvF := runCalls_inv detss.dropLast s hinv
  have hinv1 : (runCalls s detss.dropLast).Inv := hinvF.1
  have htid1 : tid < (runCalls s detss.dropLast).next_id :=
    lt_of_lt_of_le htid hinvF.2.1
  have hma1 : (runCalls s detss.dropLast).max_age = s.max_age := hinvF.2.2
  have hFlen : detss.dropLast.length = s.max_age := by
    simp [List.length_dropLast, hlen]
  have hage1 : ∀ tr' ∈ (runCalls s detss.dropLast).tracks,
      tr'.track_id = tid → s.max_age ≤ tr'.age := by
    intro tr' h hid
    have := runCalls_unmatched_age tid detss.dropLast s 0 hinv htid hunm'.1
      (fun _ _ _ => Nat.zero_le _) tr' h hid
    omega
  have hrunsplit : runCalls s detss
      = (update_tracks (runCalls s detss.dropLast) (detss.getLast hne)).1 := by
    conv_lhs => rw [← hsplit]
    rw [runCalls_append]
    rfl
  intro tr htr hid
  rw [hrunsplit] at htr
  simp only [update_tracks, if_neg hlast] at htr
  have hmem2 := (removeOldTracks_mem _ _ _).mp htr
  obtain ⟨tr1, h1, hid1, heq⟩ :=
    unmatched_phase (runCalls s detss.dropLast) (detss.getLast hne) tid
      hinv1 htid1 hunm'.2.1 tr hmem2.1 hid
  have hago := hage1 tr1 h1 hid1
  have hbumped : tr.age = tr1.age + 1 := by rw [heq]; rfl
  have hle := hmem2.2
  rw [hma1] at hle
  omega

/-- Witness for C1 (amended): a tracker with max_age 0 holding track 1
at the origin, given one call whose single detection is far beyond the
distance threshold 1, removes track 1 from the returned set. -/
theorem track_expiry_spec_witness :
    TrackerState.Inv ⟨2, [⟨1, (0, 0, 2, 2), (0, 0), 1, 0, true⟩], 0, 1⟩ ∧
    (∀ tr ∈ (runCalls ⟨2, [⟨1, (0, 0, 2, 2), (0, 0), 1, 0, true⟩], 0, 1⟩
        [[[2, 2, 2, 2]]]).tracks, tr.track_id ≠ 1) := by
  have hinv : TrackerState.Inv ⟨2, [⟨1, (0, 0, 2, 2), (0, 0), 1, 0, true⟩], 0, 1⟩ := by
    constructor
    · simp
    · intro tr htr
      rw [List.mem_singleton] at htr
      subst htr
      norm_num
  refine ⟨hinv, ?_⟩
  have hunmin : UnmatchedIn ⟨2, [⟨1, (0, 0, 2, 2), (0, 0), 1, 0, true⟩], 0, 1⟩
      [[2, 2, 2, 2]] 1 := by
    intro tr htr hid
    rw [List.mem_singleton] at htr
    subst htr
    have hphase : (tracksAfterMatch
        ⟨2, [⟨1, (0, 0, 2, 2), (0, 0), 1, 0, true⟩], 0, 1⟩ [[2, 2, 2, 2]]).1
        = [bump ⟨1, (0, 0, 2, 2), (0, 0), 1, 0, true⟩,
           ⟨2, (2, 2, 2, 2), (2, 2), 1, 0, true⟩] := by
      norm_num [tracksAfterMatch, centroids, matchTracks, bestMatch, scanDetections,
        sqDist, createWith, detBbox, detConf, pyInt]
    rw [hphase]
    exact List.mem_cons_self _ _
  exact track_expiry_spec _ [[[2, 2, 2, 2]]] 1 hinv
    ⟨⟨1, (0, 0, 2, 2), (0, 0), 1, 0, true⟩, by simp, rfl⟩
    (by rfl) (by simp) ⟨hunmin, trivial⟩ (by simp)

/-- C6: the greedy centroid matching of update_tracks, a pure function
of the track order and the detection list (hence deterministic).  Each
track scan returns an unused detection index whose distance to the
track position is strictly below the distance threshold and minimal
among all unused detections (the used set threads through the track
loop, so earlier tracks win contested detections); every detection
index left unused after the track loop spawns a new track carrying
that detection geometry and a fresh identity; the well-formedness
invariant (distinct identities, all below the counter) is preserved,
the counter never decreases, and every track of the output that is not
a carried-over identity has an identity at least the old counter and
strictly greater than every identity in the previous state. -/
theorem centroid_matching_spec (s : TrackerState) (dets : List (List ℚ))
    (hinv : s.Inv) :
    (∀ (pos : ℚ × ℚ) (used : List ℕ) (j : ℕ) (c : List ℚ × ℚ × ℚ) (d : ℚ),
      bestMatch s.distance_threshold pos used (centroids dets) = some (j, c, d) →
        j ∉ used ∧ d = sqDist pos c.2 ∧ 0 < s.distance_threshold ∧
        d < s.distance_threshold ^ 2 ∧
        (∃ hj : j < (centroids dets).length, (centroids dets).get ⟨j, hj⟩ = c) ∧
        ∀ k, ∀ hk : k < (centroids dets).length, k ∉ used →
          d ≤ sqDist pos ((centroids dets).get ⟨k, hk⟩).2) ∧
    (dets ≠ [] →
      ∀ k, ∀ hk : k < (centroids dets).length,
        k ∉ (matchTracks s.distance_threshold s.tracks [] (centroids dets)).2 →
        ∃ tr ∈ (update_tracks s dets).1.tracks,
          s.next_id ≤ tr.track_id ∧
          tr.bbox = detBbox ((centroids dets).get ⟨k, hk⟩).1 ∧
          tr.world_position = ((centroids dets).get ⟨k, hk⟩).2 ∧
          tr.confidence = detConf ((centroids dets).get ⟨k, hk⟩).1 ∧
          tr.age = 0) ∧
    (update_tracks s dets).1.Inv ∧
    s.next_id ≤ (update_tracks s dets).1.next_id ∧
    (∀ tr ∈ (update_tracks s dets).1.tracks,
      tr.track_id ∉ s.tracks.map TrackData.track_id →
      s.next_id ≤ tr.track_id ∧ ∀ tr0 ∈ s.tracks, tr0.track_id < tr.track_id) := by
  refine ⟨?_, ?_, (update_tracks_inv s dets hinv).1,
    (update_tracks_inv s dets hinv).2.1, ?_⟩
  · intro pos used j c d h
    obtain ⟨h1, h2, h3, h4, h5⟩ :=
      bestMatch_some_spec s.distance_threshold pos used (centroids dets) j c d h
    exact ⟨h1, h2, h3, h4, h5,
      bestMatch_is_min s.distance_threshold pos used (centroids dets) j c d h⟩
  · intro hd k hk hku
    have hspawn : ∀ used : List ℕ, k ∉ used →
        ∃ tr ∈ (createWith used s.next_id 0 (centroids dets)).1,
          s.next_id ≤ tr.track_id ∧
          tr.bbox = detBbox ((centroids dets).get ⟨k, hk⟩).1 ∧
          tr.world_position = ((centroids dets).get ⟨k, hk⟩).2 ∧
          tr.confidence = detConf ((centroids dets).get ⟨k, hk⟩).1 ∧
          tr.age = 0 := by
      intro used hku'
      obtain ⟨tr, htr, hg1, hg2, hg3, hg4, hg5, -⟩ :=
        createWith_spawn used (centroids dets) s.next_id 0 k hk (by simpa using hku')
      exact ⟨tr, htr, hg1, hg2, hg3, hg4, hg5⟩
    by_cases ht : s.tracks = []
    · have hused : (matchTracks s.distance_threshold s.tracks [] (centroids dets)).2
          = [] := by
        rw [ht]
        rfl
      obtain ⟨tr, htr, hprops⟩ := hspawn [] (by simp)
      refine ⟨tr, ?_, hprops⟩
      simp only [update_tracks, if_neg hd]
      refine (removeOldTracks_mem _ _ _).mpr ⟨?_, ?_⟩
      · simp only [tracksAfterMatch, if_neg hd, ht, if_pos rfl]
        exact htr
      · have := hprops.2.2.2.2
        omega
    · obtain ⟨tr, htr, hprops⟩ := hspawn _ hku
      refine ⟨tr, ?_, hprops⟩
      simp only [update_tracks, if_neg hd]
      refine (removeOldTracks_mem _ _ _).mpr ⟨?_, ?_⟩
      · simp only [tracksAfterMatch, if_neg hd, if_neg ht]
        exact List.mem_append_right _ htr
      · have := hprops.2.2.2.2
        omega
  · intro tr htr hnot
    by_cases hd : dets = []
    · subst hd
      simp only [update_tracks, eq_self_iff_true, if_true] at htr
      obtain ⟨tr0, h0, rfl⟩ := List.mem_map.mp htr
      exact absurd (List.mem_map_of_mem TrackData.track_id h0) hnot
    · simp only [update_tracks, if_neg hd] at htr
      have hmem := ((removeOldTracks_mem _ _ _).mp htr).1
      rcases tracksAfterMatch_elem s dets tr hmem with ⟨tr0, h0, hid, -⟩ | ⟨hge, -⟩
      · exfalso
        apply hnot
        rw [← hid]
        exact List.mem_map_of_mem TrackData.track_id h0
      · exact ⟨hge, fun tr0 h0 => lt_of_lt_of_le (hinv.2 tr0 h0) hge⟩

/-- Witness for C6: a tracker holding one track, given one detection. -/
theorem centroid_matching_spec_witness :
    TrackerState.Inv ⟨2, [⟨1, (0, 0, 2, 2), (1, 1), 1, 0, true⟩], 30, 80⟩ ∧
    ((∀ (pos : ℚ × ℚ) (used : List ℕ) (j : ℕ) (c : List ℚ × ℚ × ℚ) (d : ℚ),
      bestMatch (80 : ℚ) pos used (centroids [[2, 2, 2, 2]]) = some (j, c, d) →
        j ∉ used ∧ d = sqDist pos c.2 ∧ (0 : ℚ) < 80 ∧
        d < (80 : ℚ) ^ 2 ∧
        (∃ hj : j < (centroids [[2, 2, 2, 2]]).length,
          (centroids [[2, 2, 2, 2]]).get ⟨j, hj⟩ = c) ∧
        ∀ k, ∀ hk : k < (centroids [[2, 2, 2, 2]]).length, k ∉ used →
          d ≤ sqDist pos ((centroids [[2, 2, 2, 2]]).get ⟨k, hk⟩).2) ∧
    (([[2, 2, 2, 2]] : List (List ℚ)) ≠ [] →
      ∀ k, ∀ hk : k < (centroids [[2, 2, 2, 2]]).length,
        k ∉ (matchTracks 80 [⟨1, (0, 0, 2, 2), (1, 1), 1, 0, true⟩] []
              (centroids [[2, 2, 2, 2]])).2 →
        ∃ tr ∈ (update_tracks ⟨2, [⟨1, (0, 0, 2, 2), (1, 1), 1, 0, true⟩], 30, 80⟩
            [[2, 2, 2, 2]]).1.tracks,
          2 ≤ tr.track_id ∧
          tr.bbox = detBbox ((centroids [[2, 2, 2, 2]]).get ⟨k, hk⟩).1 ∧
          tr.world_position = ((centroids [[2, 2, 2, 2]]).get ⟨k, hk⟩).2 ∧
          tr.confidence = detConf ((centroids [[2, 2, 2, 2]]).get ⟨k, hk⟩).1 ∧
          tr.age = 0) ∧
    (update_tracks ⟨2, [⟨1, (0, 0, 2, 2), (1, 1), 1, 0, true⟩], 30, 80⟩
      [[2, 2, 2, 2]]).1.Inv ∧
    2 ≤ (update_tracks ⟨2, [⟨1, (0, 0, 2, 2), (1, 1), 1, 0, true⟩], 30, 80⟩
      [[2, 2, 2, 2]]).1.next_id ∧
    (∀ tr ∈ (update_tracks ⟨2, [⟨1, (0, 0, 2, 2), (1, 1), 1, 0, true⟩], 30, 80⟩
        [[2, 2, 2, 2]]).1.tracks,
      tr.track_id ∉ [⟨1, (0, 0, 2, 2), (1, 1), 1, 0, true⟩].map TrackData.track_id →
      2 ≤ tr.track_id ∧
      ∀ tr0 ∈ [(⟨1, (0, 0, 2, 2), (1, 1), 1, 0, true⟩ : TrackData)],
        tr0.track_id < tr.track_id)) := by
  have hinv : TrackerState.Inv ⟨2, [⟨1, (0, 0, 2, 2), (1, 1), 1, 0, true⟩], 30, 80⟩ := by
    constructor
    · simp
    · intro tr htr
      rw [List.mem_singleton] at htr
      subst htr
      norm_num
  exact ⟨hinv, centroid_matching_spec
    ⟨2, [⟨1, (0, 0, 2, 2), (1, 1), 1, 0, true⟩], 30, 80⟩ [[2, 2, 2, 2]] hinv⟩
